import Mathlib

/-!
Verification of the ELO-based playout policy (`src/playout/elo.c`) of the
pachi Go engine.  The file shallowly embeds the policy code into Lean:
C doubles become rationals (`ℚ`), board coordinates become `Int` with the
`pass` sentinel `-1`, and the external collaborators that are not part of
this repository's sources (the board, the incremental probability
distribution `probdist.h`, the pattern matcher and the gamma table) are
modelled from the specification at their interface boundary.
-/

/-- Board coordinates.  In the C sources `coord_t` is an integer and the
`pass` sentinel is `-1`. -/
def pass : Int := -1

/-- `is_pass(c)` from the C sources: a coordinate is the pass move iff it
equals the `pass` sentinel. -/
def is_pass (c : Int) : Bool := c == pass

/-- Stones / player colours (`enum stone`). -/
inductive Stone where
  | none | black | white | offboard
deriving DecidableEq, Repr

/-- `PROBDIST_EPSILON`.  Modelled from the spec: the "small epsilon"
threshold under which a total weight counts as zero; the concrete value
(0.05 in the reference implementation) is immaterial to the claims. -/
def PROBDIST_EPSILON : ℚ := 1/20

/-- The probability distribution over board coordinates (`struct probdist`
of `probdist.h`, which is not part of the sources under verification).
Modelled from the spec: a weight per board location (`items`), the running
sum of all weights (`total`) and per-row partial sums (`rowtotals`); `row`
models `coord_y(c, pd->b)`, the partition (board row) a coordinate belongs
to. -/
structure Probdist where
  row : Int → Nat
  items : Int → ℚ
  rowtotals : Nat → ℚ
  total : ℚ

/-- `probdist_one(pd, c)`: the per-location weight. -/
def probdist_one (pd : Probdist) (c : Int) : ℚ := pd.items c

/-- `probdist_total(pd)`. -/
def probdist_total (pd : Probdist) : ℚ := pd.total

/-- `probdist_set(pd, c, val)`.  Modelled from the spec: overwrite the
location's weight and update the total and the owning row's partial sum by
the delta. -/
def probdist_set (pd : Probdist) (c : Int) (v : ℚ) : Probdist :=
  { pd with
    items := fun x => if x = c then v else pd.items x
    rowtotals := fun r => if r = pd.row c then pd.rowtotals r + v - pd.items c else pd.rowtotals r
    total := pd.total + v - pd.items c }

/-- `probdist_mute(pd, c)`.  Modelled from the spec: muting removes the
location's weight from the total and from its row's partial sum so that
the location can no longer be drawn, while the per-location entry itself
is kept intact — `elo.c` reads `probdist_one` of a location right after
muting it (to build the local pool from the base weight), restores only
the total and the row sums afterwards, and passes the muted locations to
the sampler in the `ignores` array so that the in-row scan skips them. -/
def probdist_mute (pd : Probdist) (c : Int) : Probdist :=
  { pd with
    rowtotals := fun r => if r = pd.row c then pd.rowtotals r - pd.items c else pd.rowtotals r
    total := pd.total - pd.items c }

/-- The board, at the interface `elo.c` consumes (`board.h` is not part of
the sources under verification).  Modelled from the spec: the candidate
(free-point) list `f`, move legality and single-point-eye tests, the ko
point and the colour it applies to, the last move, the 8-neighbour
enumeration of a coordinate, the row-major enumeration `coords` of all
board locations, the per-side shared distribution `prob`, the contiguity
bonus gamma (`b->gamma->gamma[FEAT_CONTIGUITY][1]`) and the per-location
weight `gammaWeight` that `board_gamma_update` recomputes. -/
structure Board where
  f : List Int
  valid : Stone → Int → Bool
  eye : Stone → Int → Bool
  ko_coord : Int
  ko_color : Stone
  last_move : Int
  neighbors8 : Int → List Int
  coords : List Int
  prob : Stone → Probdist
  contiguity : ℚ
  gammaWeight : Stone → Int → ℚ
  row : Int → Nat

/-- `board_gamma_update(b, c, color)`.  Modelled from the spec: the board
recomputes the location's weight from its feature machinery and stores it
into the distribution via `probdist_set`. -/
def board_gamma_update (b : Board) (to_play : Stone) (pd : Probdist) (c : Int) : Probdist :=
  probdist_set pd c (b.gammaWeight to_play c)

/-- A feature-configuration bundle (`struct patternset`): the pattern
matcher (modelled from the spec as the ordered list of feature identifiers
matched at a location) and the gamma table (an association list). -/
structure Patternset where
  pattern_match : Board → Stone → Int → List Nat
  fg : List (Nat × ℚ)

/-- `feature_gamma(fg, f, NULL)`.  Modelled from the spec: look the
feature up in the gamma table; a missing entry resolves to the neutral
weight 1. -/
def feature_gamma (fg : List (Nat × ℚ)) (feat : Nat) : ℚ :=
  (fg.lookup feat).getD 1

/-- The skip test of `elo_get_probdist`: a candidate gets weight 0 when it
is a pass, an illegal move, or fills the mover's own single-point eye. -/
def elo_skip (b : Board) (to_play : Stone) (c : Int) : Bool :=
  is_pass c || !(b.valid to_play c) || b.eye to_play c

/-- The team gamma of a move: starting from 1, multiply in the gamma of
every feature the pattern matcher reports at the location (the loop body
of `elo_get_probdist`). -/
def elo_move_gamma (ps : Patternset) (b : Board) (to_play : Stone) (c : Int) : ℚ :=
  ((ps.pattern_match b to_play c).map (feature_gamma ps.fg)).foldl (· * ·) 1

/-- One iteration of the candidate loop of `elo_get_probdist`. -/
def elo_gp_step (ps : Patternset) (b : Board) (to_play : Stone)
    (acc : Nat × Probdist) (c : Int) : Nat × Probdist :=
  if elo_skip b to_play c then
    (acc.1, probdist_set acc.2 c 0)
  else
    (acc.1 + 1, probdist_set acc.2 c (elo_move_gamma ps b to_play c))

/-- `elo_get_probdist(p, ps, b, to_play, pd)`: assign a weight to every
candidate location and return the number of moves scored as legal. -/
def elo_get_probdist (ps : Patternset) (b : Board) (to_play : Stone)
    (pd : Probdist) : Nat × Probdist :=
  b.f.foldl (elo_gp_step ps b to_play) (0, pd)

@[simp] theorem probdist_set_items (pd : Probdist) (c : Int) (v : ℚ) (x : Int) :
    (probdist_set pd c v).items x = if x = c then v else pd.items x := rfl

@[simp] theorem probdist_set_row (pd : Probdist) (c : Int) (v : ℚ) :
    (probdist_set pd c v).row = pd.row := rfl

@[simp] theorem probdist_mute_items (pd : Probdist) (c : Int) :
    (probdist_mute pd c).items = pd.items := rfl

@[simp] theorem probdist_mute_row (pd : Probdist) (c : Int) :
    (probdist_mute pd c).row = pd.row := rfl

@[simp] theorem probdist_mute_total (pd : Probdist) (c : Int) :
    (probdist_mute pd c).total = pd.total - pd.items c := rfl

/-! ## The move selector `playout_elo_choose` (BOARD_GAMMA variant) -/

/-- The playout policy context (`struct elo_policy`); for move selection
only the optional override callback matters.  The callback is modelled
from the spec as an arbitrary synchronous adjustment of the distribution
with full read/write access. -/
structure EloPolicy where
  callback : Option (Probdist → Probdist)
  choose : Patternset
  assess : Patternset
  selfatari : ℚ

/-- The local probability distribution `struct lprobdist`: the list of
(coordinate, weight) pairs and its running total. -/
structure Lprobdist where
  entries : List (Int × ℚ)
  total : ℚ

/-- The mutable per-call state threaded through the `ignore_move` macro:
the (muted) distribution, the sorted `ignores` array and the recorded
row-total backups `(browtotals_i[k], browtotals_v[k])`. -/
structure MuteSt where
  pd : Probdist
  ignores : List Int
  backups : List (Nat × ℚ)

/-- The `ignores[]` insertion step of the `ignore_move` macro: append the
coordinate, then swap the final two elements if they are out of order
(the code relies on only one item ever being out of order). -/
def insert1 (l : List Int) (c : Int) : List Int :=
  if c < l.getLastD c then l.dropLast ++ [c, l.getLastD c] else l ++ [c]

/-- The `ignore_move(c_)` macro of `playout_elo_choose`: insert the
coordinate into the sorted ignore array, record the pre-mute row total of
the coordinate's row in the backup arrays, and mute the coordinate. -/
def ignore_move (st : MuteSt) (c : Int) : MuteSt :=
  { pd := probdist_mute st.pd c
    ignores := insert1 st.ignores c
    backups := st.backups ++ [(st.pd.row c, st.pd.rowtotals (st.pd.row c))] }

/-- The distribution the selection works on, after the optional callback
adjustment (`pp->callback(...)` runs before any muting). -/
def pdA (pp : EloPolicy) (b : Board) (to_play : Stone) : Probdist :=
  match pp.callback with
  | Option.none => b.prob to_play
  | Option.some f => f (b.prob to_play)

/-- `lpd.btotal`: the backup of the distribution's total, captured when
`lpd` is initialized, before the callback runs. -/
def btotal (b : Board) (to_play : Stone) : ℚ := (b.prob to_play).total

/-- The per-call state after the ko-exclusion step (lines 197–201). -/
def stKo (pp : EloPolicy) (b : Board) (to_play : Stone) : MuteSt :=
  let st0 : MuteSt := { pd := pdA pp b to_play, ignores := [], backups := [] }
  if is_pass b.ko_coord then st0 else ignore_move st0 b.ko_coord

/-- One iteration of the contiguity-detection loop (lines 204–213):
ignore the neighbour, then read its (preserved) base weight, multiply in
the contiguity bonus and push it onto the local pool. -/
def nb_step (b : Board) (acc : MuteSt × Lprobdist) (c : Int) : MuteSt × Lprobdist :=
  let st := ignore_move acc.1 c
  let val := probdist_one st.pd c * b.contiguity
  (st, { entries := acc.2.entries ++ [(c, val)], total := acc.2.total + val })

/-- The per-call state and the local pool after the contiguity-detection
loop over the 8-neighbours of the last move. -/
def stNb (pp : EloPolicy) (b : Board) (to_play : Stone) : MuteSt × Lprobdist :=
  if is_pass b.last_move then
    (stKo pp b to_play, { entries := [], total := 0 })
  else
    (b.neighbors8 b.last_move).foldl (nb_step b)
      (stKo pp b to_play, { entries := [], total := 0 })

/-- The exclusion array at the moment the global sampler is invoked:
the ignore list terminated by the `pass` sentinel (line 215). -/
def ignores_final (pp : EloPolicy) (b : Board) (to_play : Stone) : List Int :=
  (stNb pp b to_play).1.ignores ++ [pass]

/-- The stabbing value `stab = fast_frandom() * (lpd.total + pd->total)`;
the random draw `r` is passed in as a parameter. -/
def stab_val (pp : EloPolicy) (b : Board) (to_play : Stone) (r : ℚ) : ℚ :=
  r * ((stNb pp b to_play).2.total + (stNb pp b to_play).1.pd.total)

/-- The linear scan of the local pool (lines 225–231): return the first
entry whose weight absorbs the remaining stab, `pass` if the pool is
exhausted. -/
def local_scan : List (Int × ℚ) → ℚ → Int
  | [], _ => pass
  | (c, w) :: rest, stab => if stab ≤ w then c else local_scan rest (stab - w)

/-- The scan inside `probdist_pick` (from `probdist.c`, which is not part
of the sources under verification).  Modelled from the spec: walk the
board locations in row-major order, skip every location present in the
exclusion set, and return the first location whose weight absorbs the
stab; the "no move" sentinel is returned if the scan runs out. -/
def pick_scan (pd : Probdist) (ig : List Int) : List Int → ℚ → Int
  | [], _ => pass
  | c :: rest, stab =>
    if c ∈ ig then pick_scan pd ig rest stab
    else if stab ≤ pd.items c then c
    else pick_scan pd ig rest (stab - pd.items c)

/-- `probdist_pick(pd, ignores)`.  Modelled from the spec: draw a location
with probability proportional to its weight among the non-excluded
locations (`r2` is the sampler's own uniform draw). -/
def probdist_pick (pd : Probdist) (coords : List Int) (ig : List Int) (r2 : ℚ) : Int :=
  pick_scan pd ig coords (r2 * pd.total)

/-- The coordinate produced by the sampling step (lines 220–244):
local pool if the stab falls below the local total (minus epsilon),
otherwise the global sampler if the remaining global weight clears the
epsilon, otherwise `pass`. -/
def picked_coord (pp : EloPolicy) (b : Board) (to_play : Stone) (r1 r2 : ℚ) : Int :=
  let lpd := (stNb pp b to_play).2
  let stab := stab_val pp b to_play r1
  if stab < lpd.total - PROBDIST_EPSILON then
    local_scan lpd.entries stab
  else if (stNb pp b to_play).1.pd.total ≥ PROBDIST_EPSILON then
    probdist_pick (stNb pp b to_play).1.pd b.coords (ignores_final pp b to_play) r2
  else
    pass

/-- Replaying the recorded row-total backups in reverse chronological
order (lines 264–265): `for (j = n-1; j >= 0; j--) rowtotals[i_j] = v_j`. -/
def restore_rows (rt : Nat → ℚ) (bks : List (Nat × ℚ)) : Nat → ℚ :=
  bks.reverse.foldl (fun acc p => fun r => if r = p.1 then p.2 else acc r) rt

/-- The repaired distribution on the callback-free path (lines 259–266):
reset the total to the backed-up value and replay the row backups in
reverse order. -/
def restoredPd (pp : EloPolicy) (b : Board) (to_play : Stone) : Probdist :=
  let st := (stNb pp b to_play).1
  { st.pd with
    total := btotal b to_play
    rowtotals := restore_rows st.pd.rowtotals st.backups }

/-- One iteration of the full rebuild on the callback path (lines
253–256): zero the location's entry directly, then recompute it through
`board_gamma_update`. -/
def rebuild_step (b : Board) (to_play : Stone) (pd : Probdist) (c : Int) : Probdist :=
  board_gamma_update b to_play { pd with items := fun x => if x = c then 0 else pd.items x } c

/-- The fully rebuilt distribution on the callback path (lines 247–256):
zero the total and the row totals, then recompute every candidate
location. -/
def rebuiltPd (pp : EloPolicy) (b : Board) (to_play : Stone) : Probdist :=
  let st := (stNb pp b to_play).1
  b.f.foldl (rebuild_step b to_play)
    { st.pd with total := 0, rowtotals := fun _ => 0 }

/-- The distribution attached to the board at the moment the call
returns. -/
def choose_final_pd (pp : EloPolicy) (b : Board) (to_play : Stone) : Probdist :=
  if pp.callback.isSome then rebuiltPd pp b to_play else restoredPd pp b to_play

/-- The ways `playout_elo_choose` can terminate the process. -/
inductive AbortKind where
  | koColorMismatch | localOverstab | totalMismatch
deriving DecidableEq, Repr

/-- The observable outcome of one `playout_elo_choose` call: either a
returned coordinate or a process abort. -/
inductive ChooseResult where
  | move (c : Int)
  | aborted (k : AbortKind)
deriving DecidableEq, Repr

/-- The entry assertion `assert(b->ko.color == to_play)` (line 199) fails. -/
def ko_assert_fails (b : Board) (to_play : Stone) : Prop :=
  is_pass b.ko_coord = false ∧ b.ko_color ≠ to_play

instance (b : Board) (to_play : Stone) : Decidable (ko_assert_fails b to_play) := by
  unfold ko_assert_fails; infer_instance

/-- The local over-draw condition (lines 223–235): the stab falls inside
the local-pool range but the linear scan of the pool yields `pass`. -/
def local_overdraw (pp : EloPolicy) (b : Board) (to_play : Stone) (r1 : ℚ) : Prop :=
  stab_val pp b to_play r1 < (stNb pp b to_play).2.total - PROBDIST_EPSILON ∧
  is_pass (local_scan (stNb pp b to_play).2.entries (stab_val pp b to_play r1)) = true

instance (pp : EloPolicy) (b : Board) (to_play : Stone) (r1 : ℚ) :
    Decidable (local_overdraw pp b to_play r1) := by
  unfold local_overdraw; infer_instance

/-- The repair assertion `assert(fabs(pd->total - lpd.btotal) <
PROBDIST_EPSILON)` (line 257) fails: an override callback ran and the
rebuilt total diverges from the backed-up total by epsilon or more. -/
def repair_mismatch (pp : EloPolicy) (b : Board) (to_play : Stone) : Prop :=
  pp.callback.isSome = true ∧
  ¬ |(rebuiltPd pp b to_play).total - btotal b to_play| < PROBDIST_EPSILON

instance (pp : EloPolicy) (b : Board) (to_play : Stone) :
    Decidable (repair_mismatch pp b to_play) := by
  unfold repair_mismatch; infer_instance

/-- `playout_elo_choose(p, b, to_play)` (the `BOARD_GAMMA` variant,
lines 167–268).  `r1` is the draw of `fast_frandom()` used for the stab,
`r2` the draw used inside `probdist_pick`. -/
def playout_elo_choose (pp : EloPolicy) (b : Board) (to_play : Stone)
    (r1 r2 : ℚ) : ChooseResult :=
  if ko_assert_fails b to_play then .aborted .koColorMismatch
  else
    let lpd := (stNb pp b to_play).2
    let stab := stab_val pp b to_play r1
    if stab < lpd.total - PROBDIST_EPSILON ∧
        is_pass (local_scan lpd.entries stab) = true then
      .aborted .localOverstab
    else if repair_mismatch pp b to_play then .aborted .totalMismatch
    else .move (picked_coord pp b to_play r1 r2)

/-! ## Generic facts about the candidate loop of `elo_get_probdist` -/

theorem elo_gp_step_items (ps : Patternset) (b : Board) (to_play : Stone)
    (acc : Nat × Probdist) (a c : Int) :
    ((elo_gp_step ps b to_play acc a).2).items c =
      if c = a then (if elo_skip b to_play a then 0 else elo_move_gamma ps b to_play a)
      else acc.2.items c := by
  unfold elo_gp_step
  by_cases h : elo_skip b to_play a <;> simp [h]

theorem elo_gp_fold_items (ps : Patternset) (b : Board) (to_play : Stone) :
    ∀ (l : List Int) (acc : Nat × Probdist) (c : Int),
    ((l.foldl (elo_gp_step ps b to_play) acc).2).items c =
      if c ∈ l then (if elo_skip b to_play c then 0 else elo_move_gamma ps b to_play c)
      else acc.2.items c := by
  intro l
  induction l with
  | nil => simp
  | cons a l ih =>
    intro acc c
    rw [List.foldl_cons, ih]
    by_cases hc : c ∈ l
    · simp [hc]
    · by_cases hca : c = a
      · subst hca
        simp [hc, elo_gp_step_items]
      · simp [hc, hca, elo_gp_step_items]

theorem elo_gp_step_count (ps : Patternset) (b : Board) (to_play : Stone)
    (acc : Nat × Probdist) (a : Int) :
    (elo_gp_step ps b to_play acc a).1 =
      acc.1 + (if elo_skip b to_play a then 0 else 1) := by
  unfold elo_gp_step
  by_cases h : elo_skip b to_play a <;> simp [h]

theorem elo_gp_fold_count (ps : Patternset) (b : Board) (to_play : Stone) :
    ∀ (l : List Int) (acc : Nat × Probdist),
    (l.foldl (elo_gp_step ps b to_play) acc).1 =
      acc.1 + l.countP (fun c => !elo_skip b to_play c) := by
  intro l
  induction l with
  | nil => simp
  | cons a l ih =>
    intro acc
    rw [List.foldl_cons, ih, elo_gp_step_count, List.countP_cons]
    by_cases h : elo_skip b to_play a
    · simp [h]
    · simp [h]
      ring

/-- C1: `elo_get_probdist` gives weight 0 to every candidate that is a
pass, illegal, or fills the mover's own single-point eye; every other
candidate location gets the product of the gamma-table weights of all
features the pattern matcher reports there (an unknown feature, via
`feature_gamma`, contributes the neutral factor 1); the returned value is
the number of candidates scored as legal. -/
theorem elo_get_probdist_spec (ps : Patternset) (b : Board) (to_play : Stone)
    (pd : Probdist) :
    (∀ c ∈ b.f,
      ((elo_get_probdist ps b to_play pd).2).items c =
        if is_pass c || !(b.valid to_play c) || b.eye to_play c then 0
        else ((ps.pattern_match b to_play c).map (feature_gamma ps.fg)).prod) ∧
    (elo_get_probdist ps b to_play pd).1 =
      b.f.countP (fun c => !(is_pass c || !(b.valid to_play c) || b.eye to_play c)) := by
  constructor
  · intro c hc
    rw [elo_get_probdist, elo_gp_fold_items]
    simp only [hc, if_pos]
    rw [elo_move_gamma, List.prod_eq_foldl]
    rfl
  · rw [elo_get_probdist, elo_gp_fold_count]
    simp [elo_skip]

/-! Shared concrete instances used to witness the theorems. -/

/-- A fresh all-zero distribution (`probdist_alloca`). -/
def zeroPd : Probdist :=
  { row := fun _ => 0, items := fun _ => 0, rowtotals := fun _ => 0, total := 0 }

def ps0 : Patternset := { pattern_match := fun _ _ _ => [], fg := [] }

def b0 : Board :=
  { f := [0], valid := fun _ _ => true, eye := fun _ _ => false,
    ko_coord := pass, ko_color := .black, last_move := pass,
    neighbors8 := fun _ => [], coords := [0], prob := fun _ => zeroPd,
    contiguity := 1, gammaWeight := fun _ _ => 0, row := fun _ => 0 }

theorem elo_get_probdist_spec_witness :
    ((0 : Int) ∈ b0.f) ∧
    ((elo_get_probdist ps0 b0 .black zeroPd).2).items 0 =
      (if is_pass 0 || !(b0.valid .black 0) || b0.eye .black 0 then 0
       else ((ps0.pattern_match b0 .black 0).map (feature_gamma ps0.fg)).prod) :=
  ⟨by decide, (elo_get_probdist_spec ps0 b0 .black zeroPd).1 0 (by decide)⟩

/-! ## Mute / restore bookkeeping -/

@[simp] theorem probdist_mute_rowtotals (pd : Probdist) (c : Int) (r : Nat) :
    (probdist_mute pd c).rowtotals r =
      if r = pd.row c then pd.rowtotals r - pd.items c else pd.rowtotals r := rfl

@[simp] theorem ignore_move_pd_items (st : MuteSt) (c : Int) :
    (ignore_move st c).pd.items = st.pd.items := rfl

@[simp] theorem ignore_move_pd_row (st : MuteSt) (c : Int) :
    (ignore_move st c).pd.row = st.pd.row := rfl

@[simp] theorem nb_step_fst (b : Board) (acc : MuteSt × Lprobdist) (c : Int) :
    (nb_step b acc c).1 = ignore_move acc.1 c := rfl

theorem nb_fold_pd_items (b : Board) :
    ∀ (ns : List Int) (acc : MuteSt × Lprobdist),
    ((ns.foldl (nb_step b) acc).1).pd.items = acc.1.pd.items := by
  intro ns
  induction ns with
  | nil => intro acc; rfl
  | cons a ns ih => intro acc; rw [List.foldl_cons, ih]; rfl

theorem nb_fold_pd_row (b : Board) :
    ∀ (ns : List Int) (acc : MuteSt × Lprobdist),
    ((ns.foldl (nb_step b) acc).1).pd.row = acc.1.pd.row := by
  intro ns
  induction ns with
  | nil => intro acc; rfl
  | cons a ns ih => intro acc; rw [List.foldl_cons, ih]; rfl

theorem stNb_pd_items (pp : EloPolicy) (b : Board) (to_play : Stone) :
    ((stNb pp b to_play).1).pd.items = (pdA pp b to_play).items := by
  unfold stNb stKo
  by_cases hl : is_pass b.last_move = true <;>
    by_cases hk : is_pass b.ko_coord = true <;>
      simp [hl, hk, nb_fold_pd_items]

theorem stNb_pd_row (pp : EloPolicy) (b : Board) (to_play : Stone) :
    ((stNb pp b to_play).1).pd.row = (pdA pp b to_play).row := by
  unfold stNb stKo
  by_cases hl : is_pass b.last_move = true <;>
    by_cases hk : is_pass b.ko_coord = true <;>
      simp [hl, hk, nb_fold_pd_row]

/-- The row totals obtained by replaying a state's recorded backups in
reverse chronological order onto its current row totals. -/
def restoredRT (st : MuteSt) : Nat → ℚ :=
  restore_rows st.pd.rowtotals st.backups

theorem restore_rows_append (rt : Nat → ℚ) (bks : List (Nat × ℚ)) (i : Nat) (v : ℚ) :
    restore_rows rt (bks ++ [(i, v)]) =
      restore_rows (fun r => if r = i then v else rt r) bks := by
  unfold restore_rows
  rw [List.reverse_append]
  rfl

/-- Replaying in reverse order undoes one `ignore_move`: the backup
recorded last is replayed first, so the earliest backup of a row wins. -/
theorem restoredRT_ignore_move (st : MuteSt) (c : Int) :
    restoredRT (ignore_move st c) = restoredRT st := by
  have h : (fun r => if r = st.pd.row c
        then st.pd.rowtotals (st.pd.row c)
        else (probdist_mute st.pd c).rowtotals r) = st.pd.rowtotals := by
    funext r
    by_cases hr : r = st.pd.row c <;> simp [hr]
  calc restoredRT (ignore_move st c)
      = restore_rows (fun r => if r = st.pd.row c
          then st.pd.rowtotals (st.pd.row c)
          else (probdist_mute st.pd c).rowtotals r) st.backups := by
        unfold restoredRT ignore_move
        rw [restore_rows_append]
    _ = restore_rows st.pd.rowtotals st.backups := by rw [h]
    _ = restoredRT st := rfl

theorem restoredRT_nb_fold (b : Board) :
    ∀ (ns : List Int) (acc : MuteSt × Lprobdist),
    restoredRT ((ns.foldl (nb_step b) acc).1) = restoredRT acc.1 := by
  intro ns
  induction ns with
  | nil => intro acc; rfl
  | cons a ns ih =>
    intro acc
    rw [List.foldl_cons, ih, nb_step_fst, restoredRT_ignore_move]

theorem restoredRT_stNb (pp : EloPolicy) (b : Board) (to_play : Stone) :
    restoredRT (stNb pp b to_play).1 = (pdA pp b to_play).rowtotals := by
  have hst0 : restoredRT { pd := pdA pp b to_play, ignores := [], backups := [] } =
      (pdA pp b to_play).rowtotals := rfl
  have hko : restoredRT (stKo pp b to_play) = (pdA pp b to_play).rowtotals := by
    unfold stKo
    by_cases hk : is_pass b.ko_coord = true
    · rw [if_pos hk]; exact hst0
    · rw [if_neg hk, restoredRT_ignore_move]; exact hst0
  unfold stNb
  by_cases hl : is_pass b.last_move = true
  · rw [if_pos hl]; exact hko
  · rw [if_neg hl, restoredRT_nb_fold]
    exact hko

theorem probdist_ext (p q : Probdist) (h1 : p.row = q.row) (h2 : p.items = q.items)
    (h3 : p.rowtotals = q.rowtotals) (h4 : p.total = q.total) : p = q := by
  cases p; cases q; simp_all

/-- On the callback-free path the repaired distribution is exactly the
shared distribution the call started from. -/
theorem restoredPd_eq_base (pp : EloPolicy) (b : Board) (to_play : Stone)
    (hcb : pp.callback = Option.none) :
    restoredPd pp b to_play = b.prob to_play := by
  have hA : pdA pp b to_play = b.prob to_play := by
    unfold pdA; rw [hcb]
  apply probdist_ext
  · show ((stNb pp b to_play).1).pd.row = _
    rw [stNb_pd_row, hA]
  · show ((stNb pp b to_play).1).pd.items = _
    rw [stNb_pd_items, hA]
  · show restore_rows ((stNb pp b to_play).1).pd.rowtotals ((stNb pp b to_play).1).backups = _
    have := restoredRT_stNb pp b to_play
    unfold restoredRT at this
    rw [this, hA]
  · rfl

/-- A policy instance with no override callback registered. -/
def pp0 : EloPolicy :=
  { callback := Option.none, choose := ps0, assess := ps0, selfatari := 6/100 }

/-- A board with a ko point adjacent to the last move, used to exercise
the mute/restore path concretely. -/
def bKo : Board :=
  { f := [5, 6, 7], valid := fun _ _ => true, eye := fun _ _ => false,
    ko_coord := 5, ko_color := .black, last_move := 7,
    neighbors8 := fun c => if c = 7 then [5, 6] else [],
    coords := [5, 6, 7],
    prob := fun _ => { row := fun _ => 0,
                       items := fun c => if c = 6 then 10 else 0,
                       rowtotals := fun r => if r = 0 then 10 else 0,
                       total := 10 },
    contiguity := 2, gammaWeight := fun _ _ => 0, row := fun _ => 0 }

/-- C4: after a `playout_elo_choose` call with no override callback, the
shared per-side distribution attached to the board is unchanged in its
entirety — per-location weights were never touched (muting only adjusts
the aggregates) and the total and the row totals are restored from the
recorded backups — so every invariant relating the total and row totals
to the per-location weights that held at entry still holds at return. -/
theorem choose_shared_pd_unchanged (pp : EloPolicy) (b : Board) (to_play : Stone)
    (hcb : pp.callback = Option.none) :
    choose_final_pd pp b to_play = b.prob to_play := by
  unfold choose_final_pd
  rw [hcb]
  simpa using restoredPd_eq_base pp b to_play hcb

theorem choose_shared_pd_unchanged_witness :
    choose_final_pd pp0 bKo .black = bKo.prob .black :=
  choose_shared_pd_unchanged pp0 bKo .black rfl

/-- C2: with no override callback registered, the distribution's total and
every row total at return equal their values immediately before the first
mute of the call (with no callback the distribution before the first mute
is exactly `b.prob to_play`); this holds for any number of muted
locations, duplicates included, because the recorded row-total backups are
replayed in reverse chronological order, letting the earliest backup of a
row win. -/
theorem choose_restores_totals (pp : EloPolicy) (b : Board) (to_play : Stone)
    (hcb : pp.callback = Option.none) :
    (choose_final_pd pp b to_play).total = (b.prob to_play).total ∧
    ∀ i, (choose_final_pd pp b to_play).rowtotals i = (b.prob to_play).rowtotals i := by
  have h : choose_final_pd pp b to_play = b.prob to_play := by
    unfold choose_final_pd
    rw [hcb]
    simpa using restoredPd_eq_base pp b to_play hcb
  rw [h]
  exact ⟨rfl, fun _ => rfl⟩

theorem choose_restores_totals_witness :
    (choose_final_pd pp0 bKo .white).total = (bKo.prob .white).total :=
  (choose_restores_totals pp0 bKo .white rfl).1

/-! ## The local pool -/

theorem stKo_pd_items (pp : EloPolicy) (b : Board) (to_play : Stone) :
    (stKo pp b to_play).pd.items = (pdA pp b to_play).items := by
  unfold stKo
  by_cases hk : is_pass b.ko_coord = true
  · rw [if_pos hk]
  · rw [if_neg hk]; rfl

theorem nb_fold_lpd (b : Board) :
    ∀ (ns : List Int) (acc : MuteSt × Lprobdist),
    ((ns.foldl (nb_step b) acc).2).entries =
      acc.2.entries ++ ns.map (fun c => (c, acc.1.pd.items c * b.contiguity)) ∧
    ((ns.foldl (nb_step b) acc).2).total =
      acc.2.total + (ns.map (fun c => acc.1.pd.items c * b.contiguity)).sum := by
  intro ns
  induction ns with
  | nil => intro acc; simp
  | cons a ns ih =>
    intro acc
    rw [List.foldl_cons]
    obtain ⟨h1, h2⟩ := ih (nb_step b acc a)
    refine ⟨?_, ?_⟩
    · rw [h1]
      show (acc.2.entries ++ [(a, (ignore_move acc.1 a).pd.items a * b.contiguity)]) ++
          ns.map (fun c => (ignore_move acc.1 a).pd.items c * b.contiguity |> ((c, ·))) = _
      rw [ignore_move_pd_items, List.append_assoc]
      rfl
    · rw [h2]
      show acc.2.total + (ignore_move acc.1 a).pd.items a * b.contiguity +
          (ns.map fun c => (ignore_move acc.1 a).pd.items c * b.contiguity).sum = _
      rw [ignore_move_pd_items, List.map_cons, List.sum_cons]
      ring

/-- C3: when the previous move is not a pass, each 8-neighbour of it gets
a local-pool entry whose weight is the base per-location weight present in
the distribution (muting never alters the per-location entries, so this is
the weight immediately before — and after — that neighbour was muted)
multiplied by the contiguity bonus gamma, and the local pool's running
total is the sum of these weights. -/
theorem local_pool_spec (pp : EloPolicy) (b : Board) (to_play : Stone)
    (hl : is_pass b.last_move = false) :
    ((stNb pp b to_play).2).entries =
      (b.neighbors8 b.last_move).map
        (fun c => (c, probdist_one (pdA pp b to_play) c * b.contiguity)) ∧
    ((stNb pp b to_play).2).total =
      (((stNb pp b to_play).2).entries.map Prod.snd).sum := by
  have hl' : ¬ is_pass b.last_move = true := by rw [hl]; exact Bool.false_ne_true
  have hfold := nb_fold_lpd b (b.neighbors8 b.last_move)
    (stKo pp b to_play, { entries := [], total := 0 })
  have he : ((stNb pp b to_play).2).entries =
      (b.neighbors8 b.last_move).map
        (fun c => (c, probdist_one (pdA pp b to_play) c * b.contiguity)) := by
    unfold stNb
    rw [if_neg hl', hfold.1]
    simp [stKo_pd_items, probdist_one]
  refine ⟨he, ?_⟩
  unfold stNb
  rw [if_neg hl', hfold.2]
  unfold stNb at he
  rw [if_neg hl'] at he
  rw [he]
  simp only [stKo_pd_items, probdist_one, List.map_map]
  rw [zero_add]
  rfl

theorem local_pool_spec_witness :
    ((stNb pp0 bKo .black).2).entries =
      (bKo.neighbors8 bKo.last_move).map
        (fun c => (c, probdist_one (pdA pp0 bKo .black) c * bKo.contiguity)) :=
  (local_pool_spec pp0 bKo .black rfl).1

/-! ## The exclusion list and the samplers -/

theorem mem_insert1_self (l : List Int) (c : Int) : c ∈ insert1 l c := by
  unfold insert1
  by_cases h : c < l.getLastD c
  · rw [if_pos h]
    exact List.mem_append_right _ (List.mem_cons_self _ _)
  · rw [if_neg h]
    exact List.mem_append_right _ (List.mem_singleton.mpr rfl)

theorem mem_insert1_of_mem {l : List Int} {a : Int} (c : Int) (h : a ∈ l) :
    a ∈ insert1 l c := by
  unfold insert1
  by_cases hc : c < l.getLastD c
  · rw [if_pos hc]
    have hne : l ≠ [] := by
      rintro rfl
      simp at hc
    have hgl : l.getLastD c = l.getLast hne := by
      rw [List.getLastD_eq_getLast?, List.getLast?_eq_getLast _ hne]
      rfl
    rw [← List.dropLast_append_getLast hne] at h
    rcases List.mem_append.mp h with h1 | h1
    · exact List.mem_append_left _ h1
    · have ha : a = l.getLast hne := List.mem_singleton.mp h1
      refine List.mem_append_right _ ?_
      rw [ha, ← hgl]
      exact List.mem_cons_of_mem _ (List.mem_singleton.mpr rfl)
  · rw [if_neg hc]
    exact List.mem_append_left _ h

theorem mem_foldl_insert1 {a : Int} :
    ∀ (ns : List Int) (l : List Int), a ∈ l → a ∈ ns.foldl insert1 l := by
  intro ns
  induction ns with
  | nil => intro l h; exact h
  | cons x ns ih => intro l h; exact ih _ (mem_insert1_of_mem x h)

theorem nb_fold_ignores (b : Board) :
    ∀ (ns : List Int) (acc : MuteSt × Lprobdist),
    ((ns.foldl (nb_step b) acc).1).ignores = ns.foldl insert1 acc.1.ignores := by
  intro ns
  induction ns with
  | nil => intro acc; rfl
  | cons a ns ih => intro acc; rw [List.foldl_cons, ih]; rfl

theorem ko_mem_ignores (pp : EloPolicy) (b : Board) (to_play : Stone)
    (hko : is_pass b.ko_coord = false) :
    b.ko_coord ∈ ((stNb pp b to_play).1).ignores := by
  have hko' : ¬ is_pass b.ko_coord = true := by rw [hko]; exact Bool.false_ne_true
  have hkoK : b.ko_coord ∈ (stKo pp b to_play).ignores := by
    unfold stKo
    rw [if_neg hko']
    exact mem_insert1_self [] _
  unfold stNb
  by_cases hl : is_pass b.last_move = true
  · rw [if_pos hl]; exact hkoK
  · rw [if_neg hl, nb_fold_ignores]
    exact mem_foldl_insert1 _ _ hkoK

theorem local_scan_pos :
    ∀ (entries : List (Int × ℚ)) (stab : ℚ), 0 < stab →
    local_scan entries stab = pass ∨
    ∃ w, (local_scan entries stab, w) ∈ entries ∧ 0 < w := by
  intro entries
  induction entries with
  | nil => intro stab _; left; rfl
  | cons e rest ih =>
    intro stab hs
    obtain ⟨c, w⟩ := e
    by_cases h : stab ≤ w
    · right
      have hscan : local_scan ((c, w) :: rest) stab = c := by
        simp only [local_scan]; rw [if_pos h]
      refine ⟨w, ?_, lt_of_lt_of_le hs h⟩
      rw [hscan]
      exact List.mem_cons_self _ _
    · have hlt : 0 < stab - w := by
        have := lt_of_not_le h
        linarith
      have hscan : local_scan ((c, w) :: rest) stab = local_scan rest (stab - w) := by
        simp only [local_scan]; rw [if_neg h]
      rw [hscan]
      rcases ih (stab - w) hlt with h1 | ⟨w', hmem, hw'⟩
      · left; exact h1
      · right; exact ⟨w', List.mem_cons_of_mem _ hmem, hw'⟩

theorem pick_scan_not_mem (pd : Probdist) (ig : List Int) :
    ∀ (coords : List Int) (stab : ℚ),
    pick_scan pd ig coords stab = pass ∨ pick_scan pd ig coords stab ∉ ig := by
  intro coords
  induction coords with
  | nil => intro stab; left; rfl
  | cons c rest ih =>
    intro stab
    by_cases h1 : c ∈ ig
    · have h : pick_scan pd ig (c :: rest) stab = pick_scan pd ig rest stab := by
        simp only [pick_scan]; rw [if_pos h1]
      rw [h]; exact ih stab
    · by_cases h2 : stab ≤ pd.items c
      · have h : pick_scan pd ig (c :: rest) stab = c := by
          simp only [pick_scan]; rw [if_neg h1, if_pos h2]
        rw [h]; right; exact h1
      · have h : pick_scan pd ig (c :: rest) stab =
            pick_scan pd ig rest (stab - pd.items c) := by
          simp only [pick_scan]; rw [if_neg h1, if_neg h2]
        rw [h]; exact ih _

theorem stNb_entry_snd (pp : EloPolicy) (b : Board) (to_play : Stone) :
    ∀ p ∈ ((stNb pp b to_play).2).entries,
      p.2 = (pdA pp b to_play).items p.1 * b.contiguity := by
  intro p hp
  unfold stNb at hp
  by_cases hl : is_pass b.last_move = true
  · rw [if_pos hl] at hp; simp at hp
  · rw [if_neg hl, (nb_fold_lpd b _ _).1] at hp
    simp only [List.nil_append] at hp
    obtain ⟨c, _, rfl⟩ := List.mem_map.mp hp
    simp [stKo_pd_items]

theorem stNb_total_nonneg (pp : EloPolicy) (b : Board) (to_play : Stone)
    (hit : ∀ c, 0 ≤ (pdA pp b to_play).items c) (hcont : 0 ≤ b.contiguity) :
    0 ≤ ((stNb pp b to_play).2).total := by
  unfold stNb
  by_cases hl : is_pass b.last_move = true
  · rw [if_pos hl]
  · rw [if_neg hl, (nb_fold_lpd b _ _).2]
    have hnn : ∀ x ∈ (b.neighbors8 b.last_move).map
        (fun c => (stKo pp b to_play).pd.items c * b.contiguity), 0 ≤ x := by
      intro x hx
      obtain ⟨c, _, rfl⟩ := List.mem_map.mp hx
      rw [stKo_pd_items]
      exact mul_nonneg (hit c) hcont
    have h0 := List.sum_nonneg hnn
    have : ({ entries := [], total := 0 } : Lprobdist).total = 0 := rfl
    rw [this, zero_add]
    exact h0

/-- C5 (amended): assuming the data-model invariant that the ko-forbidden
point (an illegal move) carries weight 0 in the distribution the call
works on, and that the drawn stab value is strictly positive,
`playout_elo_choose` never returns the ko point: zero-weight local-pool
entries cannot absorb a strictly positive stab, and the global sampler
skips the exclusion set, which contains the ko point.  (At the boundary
draw 0 the local pool can return its first entry even with weight 0 —
see the counterexample — which is what forces the strictness.) -/
theorem choose_never_returns_ko (pp : EloPolicy) (b : Board) (to_play : Stone)
    (r1 r2 : ℚ)
    (hko : is_pass b.ko_coord = false)
    (h0 : (pdA pp b to_play).items b.ko_coord = 0)
    (hr : 0 < r1)
    (hit : ∀ c, 0 ≤ (pdA pp b to_play).items c)
    (hcont : 0 ≤ b.contiguity)
    (hG : 0 ≤ ((stNb pp b to_play).1).pd.total) :
    ∀ c, playout_elo_choose pp b to_play r1 r2 = ChooseResult.move c →
      c ≠ b.ko_coord := by
  intro c hc
  have heps : (0 : ℚ) < PROBDIST_EPSILON := by norm_num [PROBDIST_EPSILON]
  have hkone : b.ko_coord ≠ pass := by
    intro h
    rw [h] at hko
    simp [is_pass] at hko
  have hsv : stab_val pp b to_play r1 =
      r1 * (((stNb pp b to_play).2).total + ((stNb pp b to_play).1).pd.total) := rfl
  have hL0 : 0 ≤ ((stNb pp b to_play).2).total := stNb_total_nonneg pp b to_play hit hcont
  simp only [playout_elo_choose] at hc
  by_cases hka : ko_assert_fails b to_play
  · rw [if_pos hka] at hc; exact absurd hc (by simp)
  · rw [if_neg hka] at hc
    by_cases hlb : stab_val pp b to_play r1 <
        ((stNb pp b to_play).2).total - PROBDIST_EPSILON
    · by_cases hps : is_pass (local_scan ((stNb pp b to_play).2).entries
          (stab_val pp b to_play r1)) = true
      · rw [if_pos ⟨hlb, hps⟩] at hc; exact absurd hc (by simp)
      · rw [if_neg (fun h => hps h.2)] at hc
        by_cases hrm : repair_mismatch pp b to_play
        · rw [if_pos hrm] at hc; exact absurd hc (by simp)
        · rw [if_neg hrm] at hc
          injection hc with hcc
          have hstabpos : 0 < stab_val pp b to_play r1 := by
            rcases eq_or_lt_of_le (add_nonneg hL0 hG) with he | hpos
            · exfalso
              have hL00 : ((stNb pp b to_play).2).total = 0 := by linarith
              rw [hsv, ← he, mul_zero] at hlb
              rw [hL00] at hlb
              linarith
            · rw [hsv]
              exact mul_pos hr hpos
          rw [picked_coord, if_pos hlb] at hcc
          rcases local_scan_pos ((stNb pp b to_play).2).entries
              (stab_val pp b to_play r1) hstabpos with hpass | ⟨w, hmem, hw⟩
          · exfalso
            apply hps
            rw [hpass]
            rfl
          · intro hcko
            rw [hcc, hcko] at hmem
            have := stNb_entry_snd pp b to_play _ hmem
            simp only at this
            rw [h0, zero_mul] at this
            exact absurd (this ▸ hw) (lt_irrefl 0)
    · rw [if_neg (fun h => hlb h.1)] at hc
      by_cases hrm : repair_mismatch pp b to_play
      · rw [if_pos hrm] at hc; exact absurd hc (by simp)
      · rw [if_neg hrm] at hc
        injection hc with hcc
        rw [picked_coord, if_neg hlb] at hcc
        by_cases hg : ((stNb pp b to_play).1).pd.total ≥ PROBDIST_EPSILON
        · rw [if_pos hg] at hcc
          rcases pick_scan_not_mem ((stNb pp b to_play).1).pd
              (ignores_final pp b to_play) b.coords
              (r2 * ((stNb pp b to_play).1).pd.total) with hpp | hnm
          · rw [probdist_pick] at hcc
            rw [hpp] at hcc
            rw [← hcc]
            exact fun h => hkone h.symm
          · rw [probdist_pick] at hcc
            intro hcko
            apply hnm
            rw [hcc, hcko]
            exact List.mem_append_left _ (ko_mem_ignores pp b to_play hko)
        · rw [if_neg hg] at hcc
          rw [← hcc]
          exact fun h => hkone h.symm

theorem pass_eq : pass = -1 := rfl

/-- C5 counterexample: on a board where the ko point (weight 0, as the
invariant demands) is the first enumerated neighbour of the last move, the
boundary draw `fast_frandom() = 0` makes the local-pool scan stop on the
ko point's zero-weight entry, and the call returns the ko point. -/
theorem choose_returns_ko_at_zero_draw :
    playout_elo_choose pp0 bKo .black 0 0 = ChooseResult.move bKo.ko_coord ∧
    is_pass bKo.ko_coord = false ∧
    bKo.ko_color = .black ∧
    (pdA pp0 bKo .black).items bKo.ko_coord = 0 := by
  refine ⟨?_, rfl, rfl, rfl⟩
  norm_num [playout_elo_choose, ko_assert_fails, stab_val, picked_coord, local_scan,
    stNb, stKo, nb_step, ignore_move, insert1, probdist_one, probdist_mute, pdA,
    repair_mismatch, pp0, bKo, is_pass, pass_eq, PROBDIST_EPSILON, probdist_pick,
    pick_scan, ignores_final]

/-- A board with a ko point far from the (absent) last move, exercising
the global sampler path. -/
def bG : Board :=
  { f := [0], valid := fun _ _ => true, eye := fun _ _ => false,
    ko_coord := 7, ko_color := .black, last_move := pass,
    neighbors8 := fun _ => [], coords := [0, 7],
    prob := fun _ => { row := fun _ => 0,
                       items := fun c => if c = 0 then 10 else 0,
                       rowtotals := fun r => if r = 0 then 10 else 0,
                       total := 10 },
    contiguity := 1, gammaWeight := fun _ _ => 0, row := fun _ => 0 }

theorem choose_never_returns_ko_witness : (0 : Int) ≠ bG.ko_coord :=
  choose_never_returns_ko pp0 bG .black (1/2) 0 rfl rfl (by norm_num)
    (fun c => by
      show (0:ℚ) ≤ (pdA pp0 bG .black).items c
      simp only [pdA, pp0, bG]
      split
      · norm_num
      · exact le_rfl)
    (by norm_num [bG])
    (by norm_num [stNb, stKo, nb_step, ignore_move, insert1, probdist_mute, pdA,
        pp0, bG, is_pass, pass_eq])
    0
    (by norm_num [playout_elo_choose, ko_assert_fails, stab_val, picked_coord,
        local_scan, stNb, stKo, nb_step, ignore_move, insert1, probdist_one,
        probdist_mute, pdA, repair_mismatch, pp0, bG, is_pass, pass_eq,
        PROBDIST_EPSILON, probdist_pick, pick_scan, ignores_final])

/-! ## Abort characterization and the low-weight pass path -/

/-- `playout_elo_choose` written with its three guard conditions named. -/
theorem choose_eq_cases (pp : EloPolicy) (b : Board) (to_play : Stone) (r1 r2 : ℚ) :
    playout_elo_choose pp b to_play r1 r2 =
      (if ko_assert_fails b to_play then ChooseResult.aborted .koColorMismatch
      else if local_overdraw pp b to_play r1 then ChooseResult.aborted .localOverstab
      else if repair_mismatch pp b to_play then ChooseResult.aborted .totalMismatch
      else ChooseResult.move (picked_coord pp b to_play r1 r2)) := by
  unfold playout_elo_choose
  by_cases h1 : ko_assert_fails b to_play
  · rw [if_pos h1, if_pos h1]
  · rw [if_neg h1, if_neg h1]
    by_cases h2 : local_overdraw pp b to_play r1
    · have h2' := h2
      unfold local_overdraw at h2'
      rw [if_pos h2', if_pos h2]
    · have h2' := h2
      unfold local_overdraw at h2'
      rw [if_neg h2', if_neg h2]

/-- C6 (amended): the call terminates the process in exactly three
situations — the entry assertion that the ko colour matches the side to
move fails; the stab falls inside the local-pool range but the local scan
comes back with the pass sentinel (over-draw); or an override callback ran
and the rebuilt total differs from the total backed up at entry by epsilon
or more.  In every other case the call returns a coordinate (or the pass
sentinel) normally. -/
theorem choose_abort_characterization (pp : EloPolicy) (b : Board) (to_play : Stone)
    (r1 r2 : ℚ) :
    (playout_elo_choose pp b to_play r1 r2 = ChooseResult.aborted .koColorMismatch ↔
      ko_assert_fails b to_play) ∧
    (playout_elo_choose pp b to_play r1 r2 = ChooseResult.aborted .localOverstab ↔
      ¬ ko_assert_fails b to_play ∧ local_overdraw pp b to_play r1) ∧
    (playout_elo_choose pp b to_play r1 r2 = ChooseResult.aborted .totalMismatch ↔
      ¬ ko_assert_fails b to_play ∧ ¬ local_overdraw pp b to_play r1 ∧
        repair_mismatch pp b to_play) ∧
    ((∃ c, playout_elo_choose pp b to_play r1 r2 = ChooseResult.move c) ↔
      ¬ ko_assert_fails b to_play ∧ ¬ local_overdraw pp b to_play r1 ∧
        ¬ repair_mismatch pp b to_play) := by
  rw [choose_eq_cases]
  by_cases h1 : ko_assert_fails b to_play <;>
    by_cases h2 : local_overdraw pp b to_play r1 <;>
      by_cases h3 : repair_mismatch pp b to_play <;>
        simp [h1, h2, h3]

/-- A board whose ko point is marked for the wrong colour. -/
def bKoWrong : Board := { bG with ko_color := .white }

/-- C6 counterexample: the entry assertion `assert(b->ko.color == to_play)`
is a third process-terminating situation, not covered by the two the claim
lists: here the call aborts although the local over-draw condition and the
callback mismatch condition are both false. -/
theorem choose_aborts_on_ko_color :
    playout_elo_choose pp0 bKoWrong .black 0 0 =
      ChooseResult.aborted .koColorMismatch ∧
    ¬ local_overdraw pp0 bKoWrong .black 0 ∧
    ¬ repair_mismatch pp0 bKoWrong .black := by
  refine ⟨?_, ?_, ?_⟩
  · rw [choose_eq_cases,
      if_pos (show ko_assert_fails bKoWrong .black from ⟨rfl, by decide⟩)]
  · norm_num [local_overdraw, stab_val, stNb, stKo, nb_step, ignore_move, insert1,
      probdist_one, probdist_mute, pdA, pp0, bKoWrong, bG, is_pass, pass_eq,
      PROBDIST_EPSILON, local_scan]
  · norm_num [repair_mismatch, pp0]

/-! ## The rebuilt total on the callback path -/

theorem rebuild_step_total (b : Board) (to_play : Stone) (pd : Probdist) (c : Int) :
    (rebuild_step b to_play pd c).total = pd.total + b.gammaWeight to_play c := by
  show pd.total + b.gammaWeight to_play c -
      (if c = c then 0 else pd.items c) = _
  rw [if_pos rfl]
  ring

theorem rebuild_fold_total (b : Board) (to_play : Stone) :
    ∀ (l : List Int) (pd : Probdist),
    (l.foldl (rebuild_step b to_play) pd).total =
      pd.total + (l.map (b.gammaWeight to_play)).sum := by
  intro l
  induction l with
  | nil => intro pd; simp
  | cons a l ih =>
    intro pd
    rw [List.foldl_cons, ih, rebuild_step_total, List.map_cons, List.sum_cons]
    ring

theorem rebuiltPd_total (pp : EloPolicy) (b : Board) (to_play : Stone) :
    (rebuiltPd pp b to_play).total = (b.f.map (b.gammaWeight to_play)).sum := by
  unfold rebuiltPd
  rw [rebuild_fold_total]
  show (0 : ℚ) + _ = _
  rw [zero_add]

/-- C7: when the board's incremental distribution is consistent — the
board recomputes exactly the stored per-location weights, and the total is
the sum of the candidates' weights — and both the local pool's total and
the global total after exclusions are below the epsilon threshold, the
call returns the pass sentinel and never aborts: the local branch cannot
be entered, the global sampler is skipped, and even on the callback path
the rebuilt total reconciles exactly with the backup. -/
theorem choose_pass_on_low_totals (pp : EloPolicy) (b : Board) (to_play : Stone)
    (r1 r2 : ℚ)
    (hka : ¬ ko_assert_fails b to_play)
    (hr : 0 ≤ r1)
    (hL0 : 0 ≤ ((stNb pp b to_play).2).total)
    (hG0 : 0 ≤ ((stNb pp b to_play).1).pd.total)
    (hL : ((stNb pp b to_play).2).total < PROBDIST_EPSILON)
    (hG : ((stNb pp b to_play).1).pd.total < PROBDIST_EPSILON)
    (hgw : ∀ c ∈ b.f, b.gammaWeight to_play c = (b.prob to_play).items c)
    (htot : (b.prob to_play).total = (b.f.map (b.prob to_play).items).sum) :
    playout_elo_choose pp b to_play r1 r2 = ChooseResult.move pass := by
  have heps : (0 : ℚ) < PROBDIST_EPSILON := by norm_num [PROBDIST_EPSILON]
  have hstab : 0 ≤ stab_val pp b to_play r1 :=
    mul_nonneg hr (add_nonneg hL0 hG0)
  have hnl : ¬ (stab_val pp b to_play r1 <
      ((stNb pp b to_play).2).total - PROBDIST_EPSILON) := by
    intro h
    linarith
  have hlo : ¬ local_overdraw pp b to_play r1 := fun h => hnl h.1
  have hrm : ¬ repair_mismatch pp b to_play := by
    intro h
    apply h.2
    rw [rebuiltPd_total]
    have hmap : b.f.map (b.gammaWeight to_play) = b.f.map (b.prob to_play).items :=
      List.map_congr_left hgw
    rw [hmap, ← htot]
    show |(b.prob to_play).total - btotal b to_play| < PROBDIST_EPSILON
    rw [btotal, sub_self, abs_zero]
    exact heps
  rw [choose_eq_cases, if_neg hka, if_neg hlo, if_neg hrm]
  rw [picked_coord, if_neg hnl, if_neg (not_le.mpr hG)]

/-- A policy with the identity override callback registered. -/
def ppId : EloPolicy :=
  { callback := Option.some id, choose := ps0, assess := ps0, selfatari := 6/100 }

/-- A quiet board: one empty candidate of weight 0, no ko, no last move. -/
def bQuiet : Board :=
  { f := [2], valid := fun _ _ => true, eye := fun _ _ => false,
    ko_coord := pass, ko_color := .black, last_move := pass,
    neighbors8 := fun _ => [], coords := [2],
    prob := fun _ => zeroPd, contiguity := 1,
    gammaWeight := fun _ _ => 0, row := fun _ => 0 }

theorem choose_pass_on_low_totals_witness :
    playout_elo_choose ppId bQuiet .black 0 0 = ChooseResult.move pass :=
  choose_pass_on_low_totals ppId bQuiet .black 0 0
    (by norm_num [ko_assert_fails, bQuiet, is_pass, pass_eq])
    le_rfl
    (by norm_num [stNb, stKo, nb_step, ignore_move, insert1, probdist_mute,
        pdA, ppId, bQuiet, zeroPd, is_pass, pass_eq])
    (by norm_num [stNb, stKo, nb_step, ignore_move, insert1, probdist_mute,
        pdA, ppId, bQuiet, zeroPd, is_pass, pass_eq])
    (by norm_num [stNb, stKo, nb_step, ignore_move, insert1, probdist_mute,
        pdA, ppId, bQuiet, zeroPd, is_pass, pass_eq, PROBDIST_EPSILON])
    (by norm_num [stNb, stKo, nb_step, ignore_move, insert1, probdist_mute,
        pdA, ppId, bQuiet, zeroPd, is_pass, pass_eq, PROBDIST_EPSILON])
    (by intro c hc; norm_num [bQuiet, zeroPd])
    (by norm_num [bQuiet, zeroPd])

/-! ## Sortedness of the exclusion array -/

theorem getLastD_eq {l : List Int} (hne : l ≠ []) (d : Int) :
    l.getLastD d = l.getLast hne := by
  rw [List.getLastD_eq_getLast?, List.getLast?_eq_getLast _ hne]
  rfl

theorem mem_last_split {l : List Int} {a : Int} (h : a ∈ l) (hne : l ≠ []) :
    a ∈ l.dropLast ∨ a = l.getLast hne := by
  rw [← List.dropLast_append_getLast hne] at h
  rcases List.mem_append.mp h with h1 | h1
  · left; exact h1
  · right; exact List.mem_singleton.mp h1

theorem insert1_invariant {l : List Int} {m : Int}
    (hs : List.Sorted (· ≤ ·) l)
    (hd : ∀ a ∈ l.dropLast, a ≤ m) :
    List.Sorted (· ≤ ·) (insert1 l m) ∧
      ∀ a ∈ (insert1 l m).dropLast, a ≤ m := by
  rcases eq_or_ne l [] with rfl | hne
  · constructor
    · have h : insert1 [] m = [m] := by
        simp [insert1]
      rw [h]
      exact List.sorted_singleton m
    · intro a ha
      have h : insert1 [] m = [m] := by
        simp [insert1]
      rw [h] at ha
      simp at ha
  · have hlast : ∀ a ∈ l, a ≤ m ∨ a = l.getLast hne := by
      intro a ha
      rcases mem_last_split ha hne with h1 | h1
      · exact Or.inl (hd a h1)
      · exact Or.inr h1
    unfold insert1
    rw [getLastD_eq hne]
    by_cases hswap : m < l.getLast hne
    · rw [if_pos hswap]
      have hsplit : l.dropLast ++ [m, l.getLast hne] =
          (l.dropLast ++ [m]) ++ [l.getLast hne] := by
        rw [List.append_assoc]
        rfl
      constructor
      · apply List.pairwise_append.mpr
        refine ⟨hs.sublist (List.dropLast_sublist l), ?_, ?_⟩
        · exact List.Pairwise.cons
            (by intro b hb; rw [List.mem_singleton.mp hb]; exact le_of_lt hswap)
            (List.pairwise_singleton _ _)
        · intro a ha b hb
          rcases List.mem_cons.mp hb with rfl | hb1
          · exact hd a ha
          · rw [List.mem_singleton.mp hb1]
            exact (hd a ha).trans (le_of_lt hswap)
      · intro a ha
        rw [hsplit, List.dropLast_concat] at ha
        rcases List.mem_append.mp ha with h1 | h1
        · exact hd a h1
        · rw [List.mem_singleton.mp h1]
    · rw [if_neg hswap]
      have hle : l.getLast hne ≤ m := not_lt.mp hswap
      constructor
      · apply List.pairwise_append.mpr
        refine ⟨hs, List.sorted_singleton _, ?_⟩
        intro a ha b hb
        rw [List.mem_singleton.mp hb]
        rcases hlast a ha with h1 | h1
        · exact h1
        · rw [h1]; exact hle
      · intro a ha
        rw [List.dropLast_concat] at ha
        rcases hlast a ha with h1 | h1
        · exact h1
        · rw [h1]; exact hle

theorem foldl_insert1_sorted :
    ∀ (ns : List Int) (l : List Int), List.Sorted (· ≤ ·) ns →
      List.Sorted (· ≤ ·) l →
      (∀ a ∈ l.dropLast, ∀ n ∈ ns, a ≤ n) →
      List.Sorted (· ≤ ·) (ns.foldl insert1 l) := by
  intro ns
  induction ns with
  | nil => intro l _ hl _; exact hl
  | cons m ns ih =>
    intro l hns hl hcross
    rw [List.foldl_cons]
    obtain ⟨hm, hns'⟩ := List.sorted_cons.mp hns
    have hdm : ∀ a ∈ l.dropLast, a ≤ m := fun a ha =>
      hcross a ha m (List.mem_cons_self _ _)
    obtain ⟨hs1, hd1⟩ := insert1_invariant hl hdm
    apply ih _ hns' hs1
    intro a ha n hn
    exact (hd1 a ha).trans (hm n hn)

theorem stKo_ignores_cases (pp : EloPolicy) (b : Board) (to_play : Stone) :
    (stKo pp b to_play).ignores = [] ∨
    (stKo pp b to_play).ignores = [b.ko_coord] := by
  unfold stKo
  by_cases hk : is_pass b.ko_coord = true
  · rw [if_pos hk]; left; rfl
  · rw [if_neg hk]; right
    show insert1 [] b.ko_coord = [b.ko_coord]
    simp [insert1]

theorem stNb_ignores_sorted (pp : EloPolicy) (b : Board) (to_play : Stone)
    (hsn : List.Sorted (· ≤ ·) (b.neighbors8 b.last_move)) :
    List.Sorted (· ≤ ·) ((stNb pp b to_play).1).ignores := by
  have hko : List.Sorted (· ≤ ·) (stKo pp b to_play).ignores ∧
      (stKo pp b to_play).ignores.dropLast = [] := by
    rcases stKo_ignores_cases pp b to_play with h | h <;> rw [h]
    · exact ⟨List.sorted_nil, rfl⟩
    · exact ⟨List.sorted_singleton _, rfl⟩
  unfold stNb
  by_cases hl : is_pass b.last_move = true
  · rw [if_pos hl]; exact hko.1
  · rw [if_neg hl, nb_fold_ignores]
    apply foldl_insert1_sorted _ _ hsn hko.1
    intro a ha
    rw [hko.2] at ha
    simp at ha

/-- C10 (amended): at the moment `playout_elo_choose` invokes the global
sampler, the exclusion array consists of an ascending run of coordinates
terminated by the `pass` sentinel — provided the board's 8-neighbour
enumeration yields the neighbours of the last move in ascending coordinate
order (as a row-major neighbour macro does); the ko point may arrive first
and out of order, and the single swap of the final two elements performed
by each insertion then suffices. -/
theorem ignores_final_sorted (pp : EloPolicy) (b : Board) (to_play : Stone)
    (hsn : List.Sorted (· ≤ ·) (b.neighbors8 b.last_move)) :
    List.Sorted (· ≤ ·) ((ignores_final pp b to_play).dropLast) ∧
    (ignores_final pp b to_play).getLast? = some pass := by
  constructor
  · unfold ignores_final
    rw [List.dropLast_concat]
    exact stNb_ignores_sorted pp b to_play hsn
  · unfold ignores_final
    rw [List.getLast?_concat]

/-- A board whose 8-neighbour enumeration yields the last move's
neighbours in descending order. -/
def bUnsorted : Board :=
  { bG with
    ko_coord := pass
    last_move := 7
    neighbors8 := fun c => if c = 7 then [5, 3, 1] else [] }

/-- C10 counterexample: with a neighbour enumeration order that is not
ascending the one-swap insertion fails to keep `ignores[]` sorted — the
coordinates preceding the sentinel come out as `[3, 1, 5]`. -/
theorem ignores_final_unsorted_cex :
    ¬ List.Sorted (· ≤ ·) ((ignores_final pp0 bUnsorted .black).dropLast) := by
  have h : (ignores_final pp0 bUnsorted .black).dropLast = [3, 1, 5] := by
    unfold ignores_final
    rw [List.dropLast_concat]
    norm_num [stNb, stKo, nb_step, ignore_move, insert1, probdist_mute, pdA, pp0,
      bUnsorted, bG, is_pass, pass_eq]
  rw [h]
  decide

theorem ignores_final_sorted_witness :
    List.Sorted (· ≤ ·) ((ignores_final pp0 bKo .black).dropLast) :=
  (ignores_final_sorted pp0 bKo .black
    (by norm_num [bKo, List.sorted_cons])).1

/-! ## The prior estimator `playout_elo_assess` -/

/-- The prior map (`struct prior_map` of `uct/prior.h`, not part of the
sources under verification).  Modelled from the spec: the board, the side
to move, and the set of candidates the caller marks as considered. -/
structure PriorMap where
  b : Board
  to_play : Stone
  consider : Int → Bool

/-- `probdist_alloca(pd, b)`: a freshly allocated all-zero distribution,
stack-scoped to one call. -/
def probdist_alloca (b : Board) : Probdist :=
  { row := b.row, items := fun _ => 0, rowtotals := fun _ => 0, total := 0 }

/-- `playout_elo_assess(p, map, games)` (lines 289–308): build a private
distribution with the assess feature configuration, then, for every
candidate the caller marked as considered, report the prior contribution
`probdist_one(&pd, c) / probdist_total(&pd)`.  The returned association
list models the sequence of `add_prior_value` calls (`uct/prior.h` is not
part of the sources under verification; modelled from the spec as
recording one contribution per considered candidate). -/
def playout_elo_assess (pp : EloPolicy) (map : PriorMap) : List (Int × ℚ) :=
  let pd := (elo_get_probdist pp.assess map.b map.to_play (probdist_alloca map.b)).2
  (map.b.f.filter (fun c => map.consider c)).map
    (fun c => (c, probdist_one pd c / probdist_total pd))

theorem elo_gp_step_total (ps : Patternset) (b : Board) (to_play : Stone)
    (acc : Nat × Probdist) (a : Int) :
    ((elo_gp_step ps b to_play acc a).2).total =
      acc.2.total + (if elo_skip b to_play a then 0
        else elo_move_gamma ps b to_play a) - acc.2.items a := by
  unfold elo_gp_step
  by_cases h : elo_skip b to_play a <;> simp [h, probdist_set]

theorem elo_gp_fold_total_zero (ps : Patternset) (b : Board) (to_play : Stone) :
    ∀ (l : List Int) (acc : Nat × Probdist), l.Nodup →
      (∀ c ∈ l, acc.2.items c = 0) →
    ((l.foldl (elo_gp_step ps b to_play) acc).2).total =
      acc.2.total + (l.map (fun c => if elo_skip b to_play c then 0
        else elo_move_gamma ps b to_play c)).sum := by
  intro l
  induction l with
  | nil => intro acc _ _; simp
  | cons a l ih =>
    intro acc hnd hz
    rw [List.foldl_cons, ih _ (List.nodup_cons.mp hnd).2 ?items]
    case items =>
      intro c hc
      rw [elo_gp_step_items]
      have hca : ¬ c = a := fun h => (List.nodup_cons.mp hnd).1 (h ▸ hc)
      rw [if_neg hca]
      exact hz c (List.mem_cons_of_mem _ hc)
    rw [elo_gp_step_total, hz a (List.mem_cons_self _ _), List.map_cons, List.sum_cons]
    ring

theorem feature_gamma_nonneg (fg : List (Nat × ℚ)) (h : ∀ p ∈ fg, 0 ≤ p.2)
    (feat : Nat) : 0 ≤ feature_gamma fg feat := by
  induction fg with
  | nil => norm_num [feature_gamma, List.lookup]
  | cons p rest ih =>
    obtain ⟨k, v⟩ := p
    have hrest := ih fun q hq => h q (List.mem_cons_of_mem _ hq)
    unfold feature_gamma List.lookup
    cases hkb : (feat == k) with
    | false => exact hrest
    | true => exact h (k, v) (List.mem_cons_self _ _)

theorem elo_move_gamma_nonneg (ps : Patternset) (b : Board) (to_play : Stone)
    (c : Int) (hfg : ∀ p ∈ ps.fg, 0 ≤ p.2) :
    0 ≤ elo_move_gamma ps b to_play c := by
  rw [elo_move_gamma, ← List.prod_eq_foldl]
  apply List.prod_nonneg
  intro x hx
  obtain ⟨f, _, rfl⟩ := List.mem_map.mp hx
  exact feature_gamma_nonneg ps.fg hfg f

theorem list_sum_map_div (l : List Int) (f : Int → ℚ) (d : ℚ) :
    (l.map (fun c => f c / d)).sum = (l.map f).sum / d := by
  induction l with
  | nil => simp
  | cons a l ih => simp [ih, add_div]

theorem list_sum_filter_le (l : List Int) (p : Int → Bool) (f : Int → ℚ)
    (h : ∀ c ∈ l, 0 ≤ f c) :
    ((l.filter p).map f).sum ≤ (l.map f).sum := by
  induction l with
  | nil => simp
  | cons a l ih =>
    have ha := h a (List.mem_cons_self _ _)
    have ih' := ih fun c hc => h c (List.mem_cons_of_mem _ hc)
    by_cases hp : p a
    · rw [List.filter_cons_of_pos hp]
      simp only [List.map_cons, List.sum_cons]
      linarith
    · rw [List.filter_cons_of_neg hp]
      simp only [List.map_cons, List.sum_cons]
      linarith

/-- C8: each candidate marked as considered receives a prior contribution
equal to its weight under the assess configuration divided by the total
weight over all legal locations; the contributions sum to at most 1 over
all considered candidates; and the call works on its own stack-scoped
zeroed distribution, neither reading nor writing the shared per-side
distribution used by `playout_elo_choose` (replacing the board's `prob`
field leaves the result unchanged). -/
theorem playout_elo_assess_spec (pp : EloPolicy) (map : PriorMap)
    (hnd : map.b.f.Nodup)
    (hfg : ∀ p ∈ pp.assess.fg, 0 ≤ p.2) :
    (∀ q ∈ playout_elo_assess pp map,
      q.2 = (if elo_skip map.b map.to_play q.1 then 0
             else elo_move_gamma pp.assess map.b map.to_play q.1) /
        (map.b.f.map (fun c => if elo_skip map.b map.to_play c then 0
             else elo_move_gamma pp.assess map.b map.to_play c)).sum) ∧
    ((playout_elo_assess pp map).map Prod.snd).sum ≤ 1 ∧
    (∀ pr, (∀ tp c, pp.assess.pattern_match { map.b with prob := pr } tp c =
          pp.assess.pattern_match map.b tp c) →
      playout_elo_assess pp
        { map with b := { map.b with prob := pr } } = playout_elo_assess pp map) := by
  have hw : ∀ c, 0 ≤ (if elo_skip map.b map.to_play c then 0
      else elo_move_gamma pp.assess map.b map.to_play c) := by
    intro c
    by_cases h : elo_skip map.b map.to_play c
    · rw [if_pos h]
    · rw [if_neg h]
      exact elo_move_gamma_nonneg pp.assess map.b map.to_play c hfg
  have hitems : ∀ c ∈ map.b.f,
      ((elo_get_probdist pp.assess map.b map.to_play (probdist_alloca map.b)).2).items c =
        (if elo_skip map.b map.to_play c then 0
         else elo_move_gamma pp.assess map.b map.to_play c) := by
    intro c hc
    rw [elo_get_probdist, elo_gp_fold_items]
    rw [if_pos hc]
  have htotal :
      ((elo_get_probdist pp.assess map.b map.to_play (probdist_alloca map.b)).2).total =
        (map.b.f.map (fun c => if elo_skip map.b map.to_play c then 0
           else elo_move_gamma pp.assess map.b map.to_play c)).sum := by
    rw [elo_get_probdist, elo_gp_fold_total_zero pp.assess map.b map.to_play _ _ hnd
      (fun c _ => rfl)]
    show (0 : ℚ) + _ = _
    rw [zero_add]
  refine ⟨?_, ?_, ?_⟩
  · intro q hq
    obtain ⟨c, hc, rfl⟩ := List.mem_map.mp hq
    have hcf : c ∈ map.b.f := List.mem_of_mem_filter hc
    show probdist_one _ c / probdist_total _ = _
    rw [probdist_one, probdist_total, hitems c hcf, htotal]
  · have hmap : (playout_elo_assess pp map).map Prod.snd =
        (map.b.f.filter (fun c => map.consider c)).map
          (fun c => (if elo_skip map.b map.to_play c then 0
             else elo_move_gamma pp.assess map.b map.to_play c) /
            (map.b.f.map (fun x => if elo_skip map.b map.to_play x then 0
               else elo_move_gamma pp.assess map.b map.to_play x)).sum) := by
      unfold playout_elo_assess
      rw [List.map_map]
      apply List.map_congr_left
      intro c hc
      have hcf : c ∈ map.b.f := List.mem_of_mem_filter hc
      show probdist_one _ c / probdist_total _ = _
      rw [probdist_one, probdist_total, hitems c hcf, htotal]
    rw [hmap]
    set T := (map.b.f.map (fun x => if elo_skip map.b map.to_play x then 0
        else elo_move_gamma pp.assess map.b map.to_play x)).sum with hT
    have hT0 : 0 ≤ T := by
      rw [hT]
      exact List.sum_nonneg (by
        intro x hx
        obtain ⟨c, _, rfl⟩ := List.mem_map.mp hx
        exact hw c)
    rcases eq_or_lt_of_le hT0 with hTz | hTpos
    · rw [list_sum_map_div, ← hTz, div_zero]
      norm_num
    · rw [list_sum_map_div, div_le_one hTpos, hT]
      exact list_sum_filter_le map.b.f (fun c => map.consider c) _ (fun c _ => hw c)
  · intro pr hpm
    have hstep : ∀ (acc : Nat × Probdist) (c : Int),
        elo_gp_step pp.assess { map.b with prob := pr } map.to_play acc c =
        elo_gp_step pp.assess map.b map.to_play acc c := by
      intro acc c
      have hg : elo_move_gamma pp.assess { map.b with prob := pr } map.to_play c =
          elo_move_gamma pp.assess map.b map.to_play c := by
        unfold elo_move_gamma
        rw [hpm]
      have hsk : elo_skip { map.b with prob := pr } map.to_play c =
          elo_skip map.b map.to_play c := rfl
      unfold elo_gp_step
      rw [hg, hsk]
    have hfold : elo_get_probdist pp.assess { map.b with prob := pr } map.to_play
        (probdist_alloca { map.b with prob := pr }) =
        elo_get_probdist pp.assess map.b map.to_play (probdist_alloca map.b) := by
      unfold elo_get_probdist
      exact List.foldl_ext _ _ _ (fun acc c _ => hstep acc c)
    show ((({ map.b with prob := pr } : Board).f.filter
        fun c => map.consider c).map
        (fun c => (c, probdist_one (elo_get_probdist pp.assess
            { map.b with prob := pr } map.to_play
            (probdist_alloca { map.b with prob := pr })).2 c /
          probdist_total (elo_get_probdist pp.assess
            { map.b with prob := pr } map.to_play
            (probdist_alloca { map.b with prob := pr })).2))) = _
    rw [hfold]
    rfl

theorem playout_elo_assess_spec_witness :
    ((playout_elo_assess pp0
        { b := b0, to_play := .black, consider := fun _ => true }).map Prod.snd).sum ≤ 1 :=
  (playout_elo_assess_spec pp0
    { b := b0, to_play := .black, consider := fun _ => true }
    (by decide) (by simp [pp0, ps0])).2.1

/-! ## Policy initialization `playout_elo_init` -/

/-- The colon tokenizer of `playout_elo_init` (lines 346–350): `optspec`
runs to the next `:`; the trailing separator produces no further token,
while interior separators can produce empty tokens. -/
def split_colon_aux : List Char → List Char → List (List Char)
  | acc, [] => [acc.reverse]
  | acc, c :: rest =>
    if c = ':' then
      acc.reverse :: (match rest with
        | [] => []
        | r => split_colon_aux [] r)
    else split_colon_aux (acc ++ [c]) rest

/-- The token list of an option string; an empty string yields no tokens
(the `while (*next)` loop never runs). -/
def split_colon : List Char → List (List Char)
  | [] => []
  | s => split_colon_aux [] s

/-- The `optname` / `optval` split (lines 352–354): `strchr` finds the
first `=`; everything after it (possibly empty) is the value. -/
def split_eq (t : List Char) : List Char × Option (List Char) :=
  if '=' ∈ t then
    (t.takeWhile (· ≠ '='), Option.some ((t.dropWhile (· ≠ '=')).tail))
  else (t, Option.none)

/-- Case-insensitive comparison (`strcasecmp`) is modelled by comparing
lowercased character lists. -/
def lowercase (s : List Char) : List Char := s.map Char.toLower

/-- The mutable option state of `playout_elo_init`. -/
structure EloOptions where
  selfatari : ℚ
  precise_selfatari : Bool
  gammafile : List Char
  xspat : Int

/-- The option loop of `playout_elo_init` (lines 347–375): recognized
names are `selfatari` (value required), `precisesa` (value optional),
`gammafile` (value required) and `xspat` (value required); anything else
— or a missing required value — prints an error and exits with status 1.
`atof` and `atoi` are the C library conversions, passed in as parameters. -/
def parse_tokens (atof : List Char → ℚ) (atoi : List Char → Int) :
    List (List Char) → EloOptions → Except Nat EloOptions
  | [], o => Except.ok o
  | t :: ts, o =>
    let optname := (split_eq t).1
    let optval := (split_eq t).2
    if lowercase optname = "selfatari".toList ∧ optval.isSome then
      parse_tokens atof atoi ts { o with selfatari := atof (optval.getD []) }
    else if lowercase optname = "precisesa".toList then
      parse_tokens atof atoi ts
        { o with precise_selfatari := optval.elim true (fun v => atoi v != 0) }
    else if lowercase optname = "gammafile".toList ∧ optval.isSome then
      parse_tokens atof atoi ts { o with gammafile := optval.getD [] }
    else if lowercase optname = "xspat".toList ∧ optval.isSome then
      parse_tokens atof atoi ts { o with xspat := atoi (optval.getD []) }
    else Except.error 1

/-- One feature configuration as assembled by `playout_elo_init`; the
external `spatial_dict_init` / `features_gamma_init` collaborators are
modelled from the spec as building a configuration from the gamma-table
path, the spatial-feature switch and the self-atari precision flag. -/
structure PatternsetCfg where
  gammafile : List Char
  xspat : Int
  precise_selfatari : Bool

/-- The policy produced by `playout_elo_init`: both feature
configurations (richer `assess`, fast `choose` with the `f`-suffixed
gamma table) and the stored `selfatari` value. -/
structure EloPolicyConfig where
  selfatari : ℚ
  assess : PatternsetCfg
  choose : PatternsetCfg

/-- The default gamma-table path (`features_gamma_filename`,
"patterns.gamma by default"). -/
def features_gamma_filename : List Char := "patterns.gamma".toList

/-- `playout_elo_init(arg, b)` (lines 327–403): parse the options, then
build the assess configuration from the default pattern config and the
choose configuration from the fast pattern config with the `f`-suffixed
gamma file. -/
def playout_elo_init (atof : List Char → ℚ) (atoi : List Char → Int)
    (arg : Option (List Char)) : Except Nat EloPolicyConfig :=
  let defaults : EloOptions :=
    { selfatari := 6/100, precise_selfatari := false,
      gammafile := features_gamma_filename, xspat := -1 }
  let parsed := match arg with
    | Option.none => Except.ok defaults
    | Option.some s => parse_tokens atof atoi (split_colon s) defaults
  match parsed with
  | Except.error e => Except.error e
  | Except.ok o =>
      Except.ok
        { selfatari := o.selfatari
          assess := { gammafile := o.gammafile, xspat := o.xspat,
                      precise_selfatari := false }
          choose := { gammafile := o.gammafile ++ ['f'], xspat := o.xspat,
                      precise_selfatari := o.precise_selfatari } }

/-- A token is accepted by the option loop: a recognized name, with a
value present where one is required. -/
def valid_option_token (t : List Char) : Prop :=
  (lowercase (split_eq t).1 = "selfatari".toList ∧ (split_eq t).2.isSome) ∨
  lowercase (split_eq t).1 = "precisesa".toList ∨
  (lowercase (split_eq t).1 = "gammafile".toList ∧ (split_eq t).2.isSome) ∨
  (lowercase (split_eq t).1 = "xspat".toList ∧ (split_eq t).2.isSome)

instance (t : List Char) : Decidable (valid_option_token t) := by
  unfold valid_option_token; infer_instance

/-- The tokens `playout_elo_init` processes for a given argument. -/
def init_tokens (arg : Option (List Char)) : List (List Char) :=
  arg.elim [] split_colon

theorem parse_tokens_ok_iff (atof : List Char → ℚ) (atoi : List Char → Int) :
    ∀ (ts : List (List Char)) (o : EloOptions),
    ((∃ o', parse_tokens atof atoi ts o = Except.ok o') ↔
      ∀ t ∈ ts, valid_option_token t) ∧
    (¬ (∀ t ∈ ts, valid_option_token t) →
      parse_tokens atof atoi ts o = Except.error 1) := by
  intro ts
  induction ts with
  | nil =>
    intro o
    constructor
    · simp [parse_tokens]
    · intro h
      exact absurd (by simp) h
  | cons t ts ih =>
    intro o
    by_cases h1 : lowercase (split_eq t).1 = "selfatari".toList ∧ (split_eq t).2.isSome
    · have hv : valid_option_token t := Or.inl h1
      have hstep : parse_tokens atof atoi (t :: ts) o =
          parse_tokens atof atoi ts
            { o with selfatari := atof ((split_eq t).2.getD []) } := by
        show (if lowercase (split_eq t).1 = "selfatari".toList ∧ (split_eq t).2.isSome
            then _ else _) = _
        rw [if_pos h1]
      rw [hstep]
      constructor
      · rw [(ih _).1]
        simp [List.forall_mem_cons, hv]
      · intro h
        refine (ih _).2 fun hts => h ?_
        exact List.forall_mem_cons.mpr ⟨hv, hts⟩
    · by_cases h2 : lowercase (split_eq t).1 = "precisesa".toList
      · have hv : valid_option_token t := Or.inr (Or.inl h2)
        have hstep : parse_tokens atof atoi (t :: ts) o =
            parse_tokens atof atoi ts
              { o with precise_selfatari :=
                  (split_eq t).2.elim true (fun v => atoi v != 0) } := by
          show (if lowercase (split_eq t).1 = "selfatari".toList ∧ (split_eq t).2.isSome
              then _ else _) = _
          rw [if_neg h1, if_pos h2]
        rw [hstep]
        constructor
        · rw [(ih _).1]
          simp [List.forall_mem_cons, hv]
        · intro h
          refine (ih _).2 fun hts => h ?_
          exact List.forall_mem_cons.mpr ⟨hv, hts⟩
      · by_cases h3 : lowercase (split_eq t).1 = "gammafile".toList ∧ (split_eq t).2.isSome
        · have hv : valid_option_token t := Or.inr (Or.inr (Or.inl h3))
          have hstep : parse_tokens atof atoi (t :: ts) o =
              parse_tokens atof atoi ts { o with gammafile := (split_eq t).2.getD [] } := by
            show (if lowercase (split_eq t).1 = "selfatari".toList ∧ (split_eq t).2.isSome
                then _ else _) = _
            rw [if_neg h1, if_neg h2, if_pos h3]
          rw [hstep]
          constructor
          · rw [(ih _).1]
            simp [List.forall_mem_cons, hv]
          · intro h
            refine (ih _).2 fun hts => h ?_
            exact List.forall_mem_cons.mpr ⟨hv, hts⟩
        · by_cases h4 : lowercase (split_eq t).1 = "xspat".toList ∧ (split_eq t).2.isSome
          · have hv : valid_option_token t := Or.inr (Or.inr (Or.inr h4))
            have hstep : parse_tokens atof atoi (t :: ts) o =
                parse_tokens atof atoi ts
                  { o with xspat := atoi ((split_eq t).2.getD []) } := by
              show (if lowercase (split_eq t).1 = "selfatari".toList ∧ (split_eq t).2.isSome
                  then _ else _) = _
              rw [if_neg h1, if_neg h2, if_neg h3, if_pos h4]
            rw [hstep]
            constructor
            · rw [(ih _).1]
              simp [List.forall_mem_cons, hv]
            · intro h
              refine (ih _).2 fun hts => h ?_
              exact List.forall_mem_cons.mpr ⟨hv, hts⟩
          · have hv : ¬ valid_option_token t := by
              intro hvv
              rcases hvv with h | h | h | h
              · exact h1 h
              · exact h2 h
              · exact h3 h
              · exact h4 h
            have hstep : parse_tokens atof atoi (t :: ts) o = Except.error 1 := by
              show (if lowercase (split_eq t).1 = "selfatari".toList ∧ (split_eq t).2.isSome
                  then _ else _) = _
              rw [if_neg h1, if_neg h2, if_neg h3, if_neg h4]
            rw [hstep]
            constructor
            · constructor
              · rintro ⟨o', ho'⟩
                exact absurd ho' (by simp)
              · intro h
                exact absurd (h t (List.mem_cons_self _ _)) hv
            · intro _
              rfl

/-- C9: `playout_elo_init` exits with status 1 (a non-zero status) exactly
when some colon-separated token names an option other than `selfatari`,
`precisesa`, `gammafile` or `xspat` (case-insensitively), or names
`selfatari`, `gammafile` or `xspat` without supplying a value; otherwise
it completes and builds both feature configurations, the fast one with
the `f`-suffixed gamma table. -/
theorem playout_elo_init_spec (atof : List Char → ℚ) (atoi : List Char → Int)
    (arg : Option (List Char)) :
    ((∃ pol, playout_elo_init atof atoi arg = Except.ok pol ∧
        pol.choose.gammafile = pol.assess.gammafile ++ ['f']) ↔
      ∀ t ∈ init_tokens arg, valid_option_token t) ∧
    (¬ (∀ t ∈ init_tokens arg, valid_option_token t) →
      playout_elo_init atof atoi arg = Except.error 1) := by
  cases arg with
  | none =>
    constructor
    · constructor
      · intro _
        intro t ht
        simp [init_tokens] at ht
      · intro _
        exact ⟨_, rfl, rfl⟩
    · intro h
      exact absurd (by intro t ht; simp [init_tokens] at ht) h
  | some s =>
    have hik : init_tokens (Option.some s) = split_colon s := rfl
    have hsome : playout_elo_init atof atoi (Option.some s) =
        (match parse_tokens atof atoi (split_colon s)
          { selfatari := 6/100, precise_selfatari := false,
            gammafile := features_gamma_filename, xspat := -1 } with
        | Except.error e => Except.error e
        | Except.ok o => Except.ok
            { selfatari := o.selfatari
              assess := { gammafile := o.gammafile, xspat := o.xspat, precise_selfatari := false }
              choose := { gammafile := o.gammafile ++ ['f'], xspat := o.xspat, precise_selfatari := o.precise_selfatari } }) := rfl
    obtain ⟨hiff, herr⟩ := parse_tokens_ok_iff atof atoi (split_colon s)
      { selfatari := 6/100, precise_selfatari := false,
        gammafile := features_gamma_filename, xspat := -1 }
    constructor
    · rw [hik, ← hiff]
      constructor
      · rintro ⟨pol, hpol, _⟩
        rw [hsome] at hpol
        rcases hpt : parse_tokens atof atoi (split_colon s)
            { selfatari := 6/100, precise_selfatari := false,
              gammafile := features_gamma_filename, xspat := -1 } with e | o
        · rw [hpt] at hpol
          exact absurd hpol (by simp)
        · exact ⟨o, rfl⟩
      · rintro ⟨o, ho⟩
        refine ⟨?_, ?_, ?_⟩
        · exact
            { selfatari := o.selfatari
              assess := { gammafile := o.gammafile, xspat := o.xspat, precise_selfatari := false }
              choose := { gammafile := o.gammafile ++ ['f'], xspat := o.xspat, precise_selfatari := o.precise_selfatari } }
        · rw [hsome, ho]
        · rfl
    · intro h
      rw [hik] at h
      rw [hsome, herr h]

theorem playout_elo_init_spec_witness :
    playout_elo_init (fun _ => 0) (fun _ => 0)
      (Option.some ("bogus".toList)) = Except.error 1 :=
  (playout_elo_init_spec (fun _ => 0) (fun _ => 0)
    (Option.some ("bogus".toList))).2 (by decide)
